import Mathlib

/-!
Verification of the PDF417 scanning decoder
(`src/core/src/pdf417/PDFScanningDecoder.cpp`).

Shallow embedding conventions:
* C++ `int` is modelled by `Int`; C++ truncating division/modulo are
  `Int.tdiv` / `Int.tmod`; Lean's `/` and `%` on `Int` (Euclidean) are only
  used where the operands are provably non-negative, where they coincide.
* `std::vector<int>` is `List Int`; the 8-entry `ModuleBitCountType` array is
  a `List Nat` of length 8.
* The `BitMatrix` is a total function `Int → Int → Bool` (true = black);
  the source never checks bounds in the functions modelled here.
* Fallible functions returning a sentinel `-1` or `nullptr` become `Option`.
* External collaborators that live in other translation units
  (`ErrorCorrection::Decode`, `DecodedBitStreamParser::Decode`,
  `CodewordDecoder::GetDecodedValue`, `Common::GetCodeword`) are taken as
  function parameters (oracles); any contract assumed about them is stated
  explicitly as a hypothesis and documented as modelled from the spec.
-/

namespace ZXing

namespace Pdf417

/-- Decoder status codes (`ErrorStatus.h` is external to the sources at hand;
the four constructors are the ones the spec's interface section lists). -/
inductive ErrorStatus where
  | NoError
  | NotFound
  | FormatError
  | ChecksumError
deriving DecidableEq, Repr

/-- `CODEWORD_SKEW_SIZE` from the source. -/
def CODEWORD_SKEW_SIZE : Int := 2

/-- `MAX_ERRORS` from the source. -/
def MAX_ERRORS : Int := 3

/-- `MAX_EC_CODEWORDS` from the source. -/
def MAX_EC_CODEWORDS : Int := 512

/-- Modelled from the spec: `Common::MAX_CODEWORDS_IN_BARCODE` lives in
`PDFCommon.h`, which is not among the sources; a PDF417 symbol holds at most
928 codewords (the spec's glossary: 929 symbol values `0..928`, and the
symbol capacity bound). The claims treat the constant symbolically, so only
its positivity matters below. -/
def MAX_CODEWORDS_IN_BARCODE : Int := 928

/-- The `(columnCount, errorCorrectionLevel, rowCount)` triple produced by
`DetectionResultColumn::getBarcodeMetadata` (`PDFBarcodeMetadata.h`); field
names follow the accessors the source calls. -/
structure BarcodeMetadata where
  columnCount : Int
  errorCorrectionLevel : Int
  rowCount : Int
deriving DecidableEq, Repr

/-- `GetBarcodeMetadata` (source lines 195-215).  The two
`Nullable<DetectionResultColumn>` inputs together with the fallible
`getBarcodeMetadata` calls are modelled as `Option BarcodeMetadata`
(`none` = column absent or its metadata decode failed); the C++
`bool` + out-parameter result becomes `Option BarcodeMetadata`. -/
def GetBarcodeMetadata (left right : Option BarcodeMetadata) :
    Option BarcodeMetadata :=
  match left with
  | none => right
  | some l =>
    match right with
    | none => some l
    | some r =>
      if l.columnCount ≠ r.columnCount ∧
          l.errorCorrectionLevel ≠ r.errorCorrectionLevel ∧
          l.rowCount ≠ r.rowCount then
        none
      else
        some l

/-- `GetNumberOfECCodeWords` (source lines 349-352): `2 << barcodeECLevel`. -/
def GetNumberOfECCodeWords (barcodeECLevel : Nat) : Int :=
  (2 : Int) * 2 ^ barcodeECLevel

/-- `AdjustCodewordCount` (source lines 354-369), abstracted over the data it
actually reads: the detection result contributes `barcodeColumnCount`,
`barcodeRowCount` and `barcodeECLevel`, and the matrix contributes the value
list of cell `(0, 1)` (the result of `barcodeMatrix[0][1].value()`).  The
return value is the C++ `bool` paired with the value written back by
`setValue`, if any. -/
def AdjustCodewordCount (barcodeColumnCount barcodeRowCount : Int)
    (barcodeECLevel : Nat) (numberOfCodewords : List Int) :
    Bool × Option Int :=
  let calculatedNumberOfCodewords : Int :=
    barcodeColumnCount * barcodeRowCount - GetNumberOfECCodeWords barcodeECLevel
  if numberOfCodewords.isEmpty then
    if calculatedNumberOfCodewords < 1 ∨
        calculatedNumberOfCodewords > MAX_CODEWORDS_IN_BARCODE then
      (false, none)
    else
      (true, some calculatedNumberOfCodewords)
  else if numberOfCodewords.headD 0 ≠ calculatedNumberOfCodewords then
    (true, some calculatedNumberOfCodewords)
  else
    (true, none)

/-- The type of the external Reed-Solomon corrector
`ErrorCorrection::Decode(codewords&, numECCodewords, erasures, errorCount&)`:
`none` models a `false` return, `some (cw, cnt)` a `true` return with the
corrected codewords and the error count written through the references. -/
abbrev ECDecoder := List Int → Int → List Int → Option (List Int × Int)

/-- `CorrectErrors` (source lines 381-390).  Returns the status together with
the (possibly corrected) codewords and the error count. -/
def CorrectErrors (ecDecode : ECDecoder) (codewords : List Int)
    (erasures : List Int) (numECCodewords : Int) :
    ErrorStatus × List Int × Int :=
  if (erasures.length : Int) > Int.tdiv numECCodewords 2 + MAX_ERRORS ∨
      numECCodewords < 0 ∨ numECCodewords > MAX_EC_CODEWORDS then
    (ErrorStatus.ChecksumError, codewords, 0)
  else
    match ecDecode codewords numECCodewords erasures with
    | some (corrected, errorCount) => (ErrorStatus.NoError, corrected, errorCount)
    | none => (ErrorStatus.ChecksumError, codewords, 0)

/-- `VerifyCodewordCount` (source lines 395-419).  Returns the status and the
(possibly updated) codeword vector. -/
def VerifyCodewordCount (codewords : List Int) (numECCodewords : Int) :
    ErrorStatus × List Int :=
  if codewords.length < 4 then
    (ErrorStatus.FormatError, codewords)
  else
    if codewords.headD 0 > (codewords.length : Int) then
      (ErrorStatus.FormatError, codewords)
    else if codewords.headD 0 = 0 then
      if numECCodewords < (codewords.length : Int) then
        (ErrorStatus.NoError,
          codewords.set 0 ((codewords.length : Int) - numECCodewords))
      else
        (ErrorStatus.FormatError, codewords)
    else
      (ErrorStatus.NoError, codewords)

/-- The type of the external `DecodedBitStreamParser::Decode`: it receives
the corrected codewords and the EC level and yields a status (the decoder
result it fills in is irrelevant to the claims below). -/
abbrev BitStreamParser := List Int → Nat → ErrorStatus

/-- `DecodeCodewords` (source lines 421-443).  Returns the status together
with the codeword vector as mutated by `CorrectErrors` and
`VerifyCodewordCount`. -/
def DecodeCodewords (ecDecode : ECDecoder) (parser : BitStreamParser)
    (codewords : List Int) (ecLevel : Nat) (erasures : List Int) :
    ErrorStatus × List Int :=
  if codewords.isEmpty then
    (ErrorStatus.FormatError, codewords)
  else
    let numECCodewords : Int := (2 : Int) ^ (ecLevel + 1)
    match CorrectErrors ecDecode codewords erasures numECCodewords with
    | (status, cw1, _errorCount) =>
      if status = ErrorStatus.NoError then
        match VerifyCodewordCount cw1 numECCodewords with
        | (status2, cw2) =>
          if status2 = ErrorStatus.NoError then
            (parser cw2 ecLevel, cw2)
          else
            (status2, cw2)
      else
        (status, cw1)

/-- One pass of the `for (int i = 0; i < 2; i++)` loop of
`AdjustCodewordStartColumn` (source lines 46-63).  `ltr` is the current value
of the (flipped-between-passes) `leftToRight` flag; the increment is
`-1` when `ltr` holds and `+1` otherwise, exactly as in the source where
`increment` and `leftToRight` flip together.  `none` models the early
`return codewordStartColumn` taken when the skew tolerance is exceeded. -/
def adjustPass (image : Int → Int → Bool) (minColumn maxColumn : Int)
    (ltr : Bool) (codewordStartColumn imageRow corrected : Int) : Option Int :=
  if h : (if ltr then minColumn ≤ corrected else corrected < maxColumn) ∧
      image corrected imageRow = ltr then
    if (codewordStartColumn - corrected).natAbs > 2 then
      none
    else
      adjustPass image minColumn maxColumn ltr codewordStartColumn imageRow
        (corrected + if ltr then -1 else 1)
  else
    some corrected
termination_by
  ((if ltr then corrected - codewordStartColumn
    else codewordStartColumn - corrected) + 4).toNat
decreasing_by
  rename_i hle
  rcases ltr with _ | _ <;> (simp_all; omega)

/-- `AdjustCodewordStartColumn` (source lines 46-63): two passes, the second
with direction and pixel polarity flipped; an early tolerance exit in either
pass returns the original start column. -/
def AdjustCodewordStartColumn (image : Int → Int → Bool)
    (minColumn maxColumn : Int) (leftToRight : Bool)
    (codewordStartColumn imageRow : Int) : Int :=
  match adjustPass image minColumn maxColumn leftToRight codewordStartColumn
      imageRow codewordStartColumn with
  | none => codewordStartColumn
  | some c1 =>
    match adjustPass image minColumn maxColumn (!leftToRight)
        codewordStartColumn imageRow c1 with
    | none => codewordStartColumn
    | some c2 => c2

/-- Increment entry `i` of a run-length list (C++ `moduleBitCount[i] += 1`). -/
def incAt (l : List Nat) (i : Nat) : List Nat :=
  l.set i (l.getD i 0 + 1)

/-- The `while` loop of `GetModuleBitCount` (source lines 72-81).  State:
current `imageColumn`, `moduleNumber`, `previousPixelValue` and the run
counts; returns the final column, module number and counts. -/
def moduleScanLoop (image : Int → Int → Bool) (minColumn maxColumn : Int)
    (leftToRight : Bool) (imageRow : Int) (imageColumn : Int)
    (moduleNumber : Nat) (previousPixelValue : Bool) (counts : List Nat) :
    Int × Nat × List Nat :=
  if h : (if leftToRight then imageColumn < maxColumn
      else minColumn ≤ imageColumn) ∧ moduleNumber < 8 then
    if image imageColumn imageRow = previousPixelValue then
      moduleScanLoop image minColumn maxColumn leftToRight imageRow
        (imageColumn + if leftToRight then 1 else -1) moduleNumber
        previousPixelValue (incAt counts moduleNumber)
    else
      moduleScanLoop image minColumn maxColumn leftToRight imageRow
        imageColumn (moduleNumber + 1) (!previousPixelValue) counts
  else
    (imageColumn, moduleNumber, counts)
termination_by
  (8 - moduleNumber,
    (if leftToRight then maxColumn - imageColumn
     else imageColumn - minColumn + 1).toNat)
decreasing_by
  · apply Prod.Lex.right
    rcases leftToRight with _ | _ <;> simp_all
    all_goals omega
  · apply Prod.Lex.left
    omega

/-- `GetModuleBitCount` (source lines 65-83): runs the scan loop from the
start column with 8 zeroed counts and an expected initial pixel value equal
to `leftToRight`; succeeds when all 8 modules were filled, or when the final
column equals the boundary (`maxColumn` left-to-right, `minColumn`
right-to-left) with exactly 7 modules filled. -/
def GetModuleBitCount (image : Int → Int → Bool) (minColumn maxColumn : Int)
    (leftToRight : Bool) (startColumn imageRow : Int) : Bool × List Nat :=
  let r := moduleScanLoop image minColumn maxColumn leftToRight imageRow
    startColumn 0 leftToRight (List.replicate 8 0)
  (r.2.1 == 8 ||
    (r.1 == (if leftToRight then maxColumn else minColumn) && r.2.1 == 7),
    r.2.2)

/-- `CheckCodewordSkew` (source lines 85-89). -/
def CheckCodewordSkew (codewordSize minCodewordWidth maxCodewordWidth : Int) :
    Bool :=
  minCodewordWidth - CODEWORD_SKEW_SIZE ≤ codewordSize &&
    codewordSize ≤ maxCodewordWidth + CODEWORD_SKEW_SIZE

/-- The `while (true)` loop of `GetBitCountForCodeword` (source lines
92-108), which runs LSB-first over the bit pattern and fills the 8 run
counts from index 7 down to 0.  The source loop does not terminate on
patterns with fewer than 8 runs (e.g. `codeword = 0`); this is modelled by a
fuel parameter, with `none` standing for divergence. -/
def bitCountLoop : Nat → Nat → Nat → Int → List Nat → Option (List Nat)
  | 0, _, _, _, _ => none
  | fuel + 1, codeword, previousValue, i, result =>
    if codeword % 2 ≠ previousValue then
      if i - 1 < 0 then
        some result
      else
        bitCountLoop fuel (codeword / 2) (codeword % 2) (i - 1)
          (incAt result (i - 1).toNat)
    else
      bitCountLoop fuel (codeword / 2) previousValue i (incAt result i.toNat)

/-- `GetBitCountForCodeword` (source lines 92-108) with fuel 64: a valid
17-module pattern needs 17 count increments plus 8 transitions, well under
64; `none` models divergence of the source loop. -/
def GetBitCountForCodeword (codeword : Nat) : Option (List Nat) :=
  bitCountLoop 64 codeword 0 7 (List.replicate 8 0)

/-- `GetCodewordBucketNumber` on a module-bit-count array (source lines
110-113).  `Int.tmod` is the C++ `%`. -/
def GetCodewordBucketNumberOfCounts (moduleBitCount : List Nat) : Int :=
  Int.tmod ((moduleBitCount.getD 0 0 : Int) - (moduleBitCount.getD 2 0 : Int) +
    (moduleBitCount.getD 4 0 : Int) - (moduleBitCount.getD 6 0 : Int) + 9) 9

/-- A detected codeword (`PDFCodeword.h`): position, bucket and value. -/
structure Codeword where
  startX : Int
  endX : Int
  bucket : Int
  value : Int
deriving DecidableEq, Repr

/-- Modelled from the spec: `CodewordDecoder::GetDecodedValue`
(`PDFCodewordDecoder`, not among the sources) normalizes the 8 run counts to
a 17-module pattern and returns it as a bit pattern, or `-1` on failure;
the `-1` sentinel is rendered as `none` and the pattern as a `Nat`. -/
abbrev DecodedValueFn := List Nat → Option Nat

/-- Modelled from the spec: `Common::GetCodeword` (`PDFCommon`, not among
the sources) looks a normalized 17-module pattern up in the PDF417 symbol
table, returning the codeword index or `-1` (rendered as `none`) when the
pattern is not a valid symbol. -/
abbrev SymbolLookupFn := Nat → Option Int

/-- `DetectCodeword` (source lines 122-171), parameterized by the two
external table functions.  The (unreachable for valid symbol patterns)
divergence of `GetBitCountForCodeword` is collapsed to `none`. -/
def DetectCodeword (getDecodedValue : DecodedValueFn)
    (getCodeword : SymbolLookupFn) (image : Int → Int → Bool)
    (minColumn maxColumn : Int) (leftToRight : Bool)
    (startColumn0 imageRow minCodewordWidth maxCodewordWidth : Int) :
    Option Codeword :=
  let startColumn := AdjustCodewordStartColumn image minColumn maxColumn
    leftToRight startColumn0 imageRow
  let mbc := GetModuleBitCount image minColumn maxColumn leftToRight
    startColumn imageRow
  if !mbc.1 then
    none
  else
    let codewordBitCount : Int := (mbc.2.sum : Int)
    let startCol :=
      if leftToRight then startColumn else startColumn - codewordBitCount
    let endCol :=
      if leftToRight then startColumn + codewordBitCount else startColumn
    let moduleBitCount :=
      if leftToRight then mbc.2 else mbc.2.reverse
    if !CheckCodewordSkew codewordBitCount minCodewordWidth
        maxCodewordWidth then
      none
    else
      match getDecodedValue moduleBitCount with
      | none => none
      | some decodedValue =>
        match getCodeword decodedValue with
        | none => none
        | some codeword =>
          match GetBitCountForCodeword decodedValue with
          | none => none
          | some bitcount =>
            some ⟨startCol, endCol,
              GetCodewordBucketNumberOfCounts bitcount, codeword⟩

/-- The patching `for` loop at the top of each attempt of
`CreateDecoderResultFromAmbiguousValues` (source lines 465-467):
`codewords[ambiguousIndexes[i]] = ambiguousIndexValues[i][ambiguousIndexCount[i]]`
for every `i`. -/
def patchCodewords : List Int → List Nat → List (List Int) → List Nat →
    List Int
  | codewords, idx :: idxs, vals :: valss, c :: cs =>
    patchCodewords (codewords.set idx (vals.getD c 0)) idxs valss cs
  | codewords, _, _, _ => codewords

/-- The counter-increment `for` loop of
`CreateDecoderResultFromAmbiguousValues` (source lines 476-487): bump the
least significant position that still has headroom, zeroing the positions
below it; `none` models the `return ChecksumError` taken when the most
significant position overflows. -/
def incCounts : List Nat → List Nat → Option (List Nat)
  | c :: cs, s :: ss =>
    if c + 1 < s then
      some ((c + 1) :: cs)
    else
      (incCounts cs ss).map (0 :: ·)
  | _, _ => none

/-- The `while (tries-- > 0)` loop of
`CreateDecoderResultFromAmbiguousValues` (source lines 463-488).  `decode`
is one `DecodeCodewords` call returning the status and the mutated codeword
vector, which the source threads into the next attempt.  Besides the
returned status, the loop records as a ghost trace the counter vector used
at each `DecodeCodewords` invocation, paired with the status that
invocation returned. -/
def resolveLoop (decode : List Int → ErrorStatus × List Int)
    (ambiguousIndexes : List Nat) (ambiguousIndexValues : List (List Int)) :
    Nat → List Int → List Nat → ErrorStatus × List (List Nat × ErrorStatus)
  | 0, _, _ => (ErrorStatus.ChecksumError, [])
  | tries + 1, codewords, ambiguousIndexCount =>
    let patched := patchCodewords codewords ambiguousIndexes
      ambiguousIndexValues ambiguousIndexCount
    match decode patched with
    | (status, codewords1) =>
      if status ≠ ErrorStatus.ChecksumError then
        (status, [(ambiguousIndexCount, status)])
      else if ambiguousIndexCount.isEmpty then
        (ErrorStatus.ChecksumError, [(ambiguousIndexCount, status)])
      else
        match incCounts ambiguousIndexCount
            (ambiguousIndexValues.map List.length) with
        | some nextCount =>
          match resolveLoop decode ambiguousIndexes ambiguousIndexValues
              tries codewords1 nextCount with
          | (finalStatus, trace) =>
            (finalStatus, (ambiguousIndexCount, status) :: trace)
        | none => (ErrorStatus.ChecksumError, [(ambiguousIndexCount, status)])

/-- `CreateDecoderResultFromAmbiguousValues` (source lines 459-490):
100 tries, counters initialized to zero, each attempt calling
`DecodeCodewords` on the patched vector.  The status component is the
source's return value; the second component is the ghost trace of counter
vectors described at `resolveLoop`. -/
def CreateDecoderResultFromAmbiguousValues (ecDecode : ECDecoder)
    (parser : BitStreamParser) (ecLevel : Nat) (codewords : List Int)
    (erasureArray : List Int) (ambiguousIndexes : List Nat)
    (ambiguousIndexValues : List (List Int)) :
    ErrorStatus × List (List Nat × ErrorStatus) :=
  resolveLoop (fun cw => DecodeCodewords ecDecode parser cw ecLevel erasureArray)
    ambiguousIndexes ambiguousIndexValues 100 codewords
    (List.replicate ambiguousIndexes.length 0)

/-- The digits, least significant first, of `n` in the mixed-radix system
with place sizes `sizes` — the reference enumeration order for the
ambiguity counter. -/
def mixedRadixDigits : List Nat → Nat → List Nat
  | [], _ => []
  | s :: ss, n => n % s :: mixedRadixDigits ss (n / s)

/-- The value of a least-significant-first mixed-radix digit string. -/
def mixedRadixValue : List Nat → List Nat → Nat
  | s :: ss, d :: ds => d + s * mixedRadixValue ss ds
  | _, _ => 0

/-! ## Theorems -/

/-- C1: when both the left and the right row-indicator metadata decode
successfully, `GetBarcodeMetadata` fails exactly when all three fields
(`columnCount`, `errorCorrectionLevel`, `rowCount`) differ between left and
right; as soon as at least one of the three agrees, it succeeds and returns
the left metadata unchanged. -/
theorem getBarcodeMetadata_both_present (l r : BarcodeMetadata) :
    (GetBarcodeMetadata (some l) (some r) = none ↔
      l.columnCount ≠ r.columnCount ∧
        l.errorCorrectionLevel ≠ r.errorCorrectionLevel ∧
        l.rowCount ≠ r.rowCount) ∧
    ((l.columnCount = r.columnCount ∨
        l.errorCorrectionLevel = r.errorCorrectionLevel ∨
        l.rowCount = r.rowCount) →
      GetBarcodeMetadata (some l) (some r) = some l) := by
  unfold GetBarcodeMetadata
  constructor
  · split <;> simp_all
  · intro h
    split <;> simp_all
    tauto

/-- Concrete instance of `getBarcodeMetadata_both_present`: column counts
agree while the other two fields differ, so the left metadata is kept. -/
theorem getBarcodeMetadata_both_present_witness :
    GetBarcodeMetadata (some ⟨3, 1, 10⟩) (some ⟨3, 2, 11⟩) =
      some ⟨3, 1, 10⟩ :=
  (getBarcodeMetadata_both_present ⟨3, 1, 10⟩ ⟨3, 2, 11⟩).2 (Or.inl rfl)

/-- C2 counterexample: with `columnCount = rowCount = 1` and `ecLevel = 0`
the calculated number of codewords is `1·1 − 2 = −1`, outside
`[1, MAX_CODEWORDS_IN_BARCODE]`, yet when cell `(0, 1)` already holds the
value `5` the function succeeds (returning `true` and overwriting with the
out-of-range calculated value) instead of failing. -/
theorem adjustCodewordCount_not_always_range_checked :
    (AdjustCodewordCount 1 1 0 [5]).1 = true ∧
      1 * 1 - GetNumberOfECCodeWords 0 < 1 := by
  constructor
  · rfl
  · decide

/-- C2 amended: `AdjustCodewordCount` fails exactly when cell `(0, 1)` is
empty **and** the calculated number of codewords
`columnCount · rowCount − (2 << ecLevel)` lies outside
`[1, MAX_CODEWORDS_IN_BARCODE]`; when the cell already holds a value the
function always succeeds (overwriting the cell whenever the stored value
disagrees with the calculated one). -/
theorem adjustCodewordCount_fails_iff (barcodeColumnCount barcodeRowCount : Int)
    (barcodeECLevel : Nat) (numberOfCodewords : List Int) :
    (AdjustCodewordCount barcodeColumnCount barcodeRowCount barcodeECLevel
        numberOfCodewords).1 = false ↔
      numberOfCodewords = [] ∧
        (barcodeColumnCount * barcodeRowCount -
            GetNumberOfECCodeWords barcodeECLevel < 1 ∨
          barcodeColumnCount * barcodeRowCount -
            GetNumberOfECCodeWords barcodeECLevel >
              MAX_CODEWORDS_IN_BARCODE) := by
  unfold AdjustCodewordCount
  cases numberOfCodewords <;> simp <;> split <;> simp_all

/-- C3: `CorrectErrors` returns `ChecksumError` without consulting the
Reed-Solomon decoder (the result is the same for every decoder `g`) whenever
the erasure count exceeds `numECCodewords / 2 + MAX_ERRORS` (C truncating
division) or `numECCodewords` is negative or exceeds `MAX_EC_CODEWORDS`;
otherwise its status is `NoError` exactly when the external decoder reports
success. -/
theorem correctErrors_spec (ecDecode : ECDecoder)
    (codewords erasures : List Int) (numECCodewords : Int) :
    (((erasures.length : Int) > Int.tdiv numECCodewords 2 + MAX_ERRORS ∨
        numECCodewords < 0 ∨ numECCodewords > MAX_EC_CODEWORDS) →
      ∀ g : ECDecoder, CorrectErrors g codewords erasures numECCodewords =
        (ErrorStatus.ChecksumError, codewords, 0)) ∧
    (¬((erasures.length : Int) > Int.tdiv numECCodewords 2 + MAX_ERRORS ∨
        numECCodewords < 0 ∨ numECCodewords > MAX_EC_CODEWORDS) →
      ((CorrectErrors ecDecode codewords erasures numECCodewords).1 =
          ErrorStatus.NoError ↔
        (ecDecode codewords numECCodewords erasures).isSome)) := by
  constructor
  · intro h g
    unfold CorrectErrors
    rw [if_pos h]
  · intro h
    unfold CorrectErrors
    rw [if_neg h]
    cases hx : ecDecode codewords numECCodewords erasures with
    | none => simp
    | some p => simp

/-- A Reed-Solomon oracle that always succeeds without changing anything;
used to instantiate `correctErrors_spec`. -/
def ecAlwaysOK : ECDecoder := fun cw _ _ => some (cw, 0)

/-- Concrete instances of `correctErrors_spec`: five erasures against
`numECCodewords = 2` exceed the budget `2/2 + 3 = 4` and are rejected for
every decoder, while with no erasures the status tracks the decoder. -/
theorem correctErrors_spec_witness :
    CorrectErrors ecAlwaysOK [1, 2, 3, 4] [0, 1, 2, 3, 4] 2 =
      (ErrorStatus.ChecksumError, [1, 2, 3, 4], 0) ∧
    ((CorrectErrors ecAlwaysOK [1, 2, 3, 4] [] 2).1 = ErrorStatus.NoError ↔
      (ecAlwaysOK [1, 2, 3, 4] 2 []).isSome) :=
  ⟨(correctErrors_spec ecAlwaysOK [1, 2, 3, 4] [0, 1, 2, 3, 4] 2).1
      (by decide) ecAlwaysOK,
    (correctErrors_spec ecAlwaysOK [1, 2, 3, 4] [] 2).2 (by decide)⟩

/-- C5: `VerifyCodewordCount` returns `FormatError` exactly when the vector
has fewer than 4 elements, or `codewords[0]` exceeds the vector length, or
`codewords[0]` is 0 while `numECCodewords` is not smaller than the length;
when `codewords[0] = 0` and `numECCodewords` is smaller than the length it
sets `codewords[0]` to `length − numECCodewords` and returns `NoError`; and
in every other `NoError` case it leaves the vector unchanged. -/
theorem verifyCodewordCount_spec (codewords : List Int)
    (numECCodewords : Int) :
    ((VerifyCodewordCount codewords numECCodewords).1 =
        ErrorStatus.FormatError ↔
      (codewords.length < 4 ∨
        codewords.headD 0 > (codewords.length : Int) ∨
        (codewords.headD 0 = 0 ∧
          ¬ numECCodewords < (codewords.length : Int)))) ∧
    (4 ≤ codewords.length → codewords.headD 0 = 0 →
      numECCodewords < (codewords.length : Int) →
      VerifyCodewordCount codewords numECCodewords =
        (ErrorStatus.NoError,
          codewords.set 0 ((codewords.length : Int) - numECCodewords))) ∧
    ((VerifyCodewordCount codewords numECCodewords).1 = ErrorStatus.NoError →
      codewords.headD 0 ≠ 0 →
      (VerifyCodewordCount codewords numECCodewords).2 = codewords) := by
  unfold VerifyCodewordCount
  by_cases h4 : codewords.length < 4
  · rw [if_pos h4]
    exact ⟨⟨fun _ => Or.inl h4, fun _ => rfl⟩,
      fun h _ _ => absurd h4 (by omega), fun h _ => by simp at h⟩
  · rw [if_neg h4]
    by_cases hgt : codewords.headD 0 > (codewords.length : Int)
    · rw [if_pos hgt]
      exact ⟨⟨fun _ => Or.inr (Or.inl hgt), fun _ => rfl⟩,
        fun _ h0 _ => absurd hgt (by omega), fun h _ => by simp at h⟩
    · rw [if_neg hgt]
      by_cases h0 : codewords.headD 0 = 0
      · rw [if_pos h0]
        by_cases hec : numECCodewords < (codewords.length : Int)
        · rw [if_pos hec]
          exact ⟨⟨fun h => by simp at h, fun h => absurd h (by omega)⟩,
            fun _ _ _ => rfl, fun _ hne => absurd h0 hne⟩
        · rw [if_neg hec]
          exact ⟨⟨fun _ => Or.inr (Or.inr ⟨h0, hec⟩), fun _ => rfl⟩,
            fun _ _ hlt => absurd hlt hec, fun h _ => by simp at h⟩
      · rw [if_neg h0]
        exact ⟨⟨fun h => by simp at h, fun h => absurd h (by omega)⟩,
          fun _ hh _ => absurd hh h0, fun _ _ => rfl⟩

/-- Concrete instance of `verifyCodewordCount_spec`: a zero Symbol Length
Descriptor with room for the EC codewords is auto-fixed to
`length − numECCodewords` with status `NoError`. -/
theorem verifyCodewordCount_spec_witness :
    VerifyCodewordCount [0, 5, 6, 7] 2 = (ErrorStatus.NoError, [2, 5, 6, 7]) := by
  have h := (verifyCodewordCount_spec [0, 5, 6, 7] 2).2.1 (by decide)
    (by decide) (by decide)
  simpa using h

/-- C10: `DecodeCodewords` on an empty codeword vector returns `FormatError`
for every EC level, erasure list, Reed-Solomon decoder and bit-stream
parser — in particular without invoking either external collaborator, since
the result does not depend on them. -/
theorem decodeCodewords_empty (ecDecode : ECDecoder) (parser : BitStreamParser)
    (ecLevel : Nat) (erasures : List Int) :
    DecodeCodewords ecDecode parser [] ecLevel erasures =
      (ErrorStatus.FormatError, []) := by
  rfl

/-- C6: `GetModuleBitCount` succeeds exactly when the scan loop filled all 8
modules, or ended on the boundary column (`maxColumn` when scanning
left-to-right, `minColumn` when right-to-left) with exactly 7 modules
filled; in every other case it fails. -/
theorem getModuleBitCount_success_iff (image : Int → Int → Bool)
    (minColumn maxColumn : Int) (leftToRight : Bool)
    (startColumn imageRow : Int) :
    (GetModuleBitCount image minColumn maxColumn leftToRight startColumn
        imageRow).1 = true ↔
      ((moduleScanLoop image minColumn maxColumn leftToRight imageRow
          startColumn 0 leftToRight (List.replicate 8 0)).2.1 = 8 ∨
        ((moduleScanLoop image minColumn maxColumn leftToRight imageRow
            startColumn 0 leftToRight (List.replicate 8 0)).1 =
          (if leftToRight then maxColumn else minColumn) ∧
          (moduleScanLoop image minColumn maxColumn leftToRight imageRow
            startColumn 0 leftToRight (List.replicate 8 0)).2.1 = 7)) := by
  unfold GetModuleBitCount
  rcases h : moduleScanLoop image minColumn maxColumn leftToRight imageRow
    startColumn 0 leftToRight (List.replicate 8 0) with ⟨endCol, mn, counts⟩
  simp [h]

/-- If a pass of `AdjustCodewordStartColumn` ends normally starting within
distance 3 of the original column, it ends within distance 3 of it: the
column only advances when the current distance is at most 2. -/
theorem adjustPass_close (image : Int → Int → Bool) (minColumn maxColumn : Int)
    (ltr : Bool) (codewordStartColumn imageRow : Int) :
    ∀ corrected result,
      (codewordStartColumn - corrected).natAbs ≤ 3 →
      adjustPass image minColumn maxColumn ltr codewordStartColumn imageRow
        corrected = some result →
      (codewordStartColumn - result).natAbs ≤ 3 := by
  intro corrected result hclose hrun
  induction corrected using adjustPass.induct image minColumn maxColumn ltr
      codewordStartColumn imageRow with
  | case1 corrected hguard htol =>
    simp only [dite_eq_ite] at hguard
    rw [adjustPass, dif_pos hguard, if_pos htol] at hrun
    exact absurd hrun (by simp)
  | case2 corrected hguard htol ih =>
    simp only [dite_eq_ite] at hguard
    rw [adjustPass, dif_pos hguard, if_neg htol] at hrun
    rcases ltr with _ | _ <;> simp only [dite_eq_ite, Bool.false_eq_true,
        if_true, if_false] at ih hrun <;> exact ih (by omega) hrun
  | case3 corrected hguard =>
    simp only [dite_eq_ite] at hguard
    rw [adjustPass, dif_neg hguard] at hrun
    cases hrun
    exact hclose

/-- C8 counterexample: `minColumn = 1`, a row whose pixels are black up to
column 3 and an initial start column of 3.  The first pass walks left to
column 0 (each step taken at distance ≤ 2), exits on the range guard, and
the second pass exits immediately because column 0 is black — so the
function returns 0, at distance 3 > CODEWORD_SKEW_SIZE from the given start
column 3. -/
theorem adjustCodewordStartColumn_distance_three :
    AdjustCodewordStartColumn (fun c _ => decide (c ≤ 3)) 1 10 true 3 0 = 0 ∧
      ((3 : Int) - 0).natAbs > 2 := by
  constructor
  · simp [AdjustCodewordStartColumn, adjustPass]
  · decide

/-- C8 amended: the column returned by `AdjustCodewordStartColumn` differs
from the given `codewordStartColumn` by at most `CODEWORD_SKEW_SIZE + 1 = 3`
(the source advances whenever the current distance is still ≤ 2, so distance
3 is reachable and returnable); when the deviation tolerance is exceeded in
both directions, the original `codewordStartColumn` itself is returned. -/
theorem adjustCodewordStartColumn_skew_bound (image : Int → Int → Bool)
    (minColumn maxColumn : Int) (leftToRight : Bool)
    (codewordStartColumn imageRow : Int) :
    (AdjustCodewordStartColumn image minColumn maxColumn leftToRight
        codewordStartColumn imageRow - codewordStartColumn).natAbs ≤ 3 := by
  unfold AdjustCodewordStartColumn
  rcases h1 : adjustPass image minColumn maxColumn leftToRight
      codewordStartColumn imageRow codewordStartColumn with _ | c1
  · simp only [h1]
    omega
  · have hc1 := adjustPass_close image minColumn maxColumn leftToRight
      codewordStartColumn imageRow codewordStartColumn c1 (by omega) h1
    rcases h2 : adjustPass image minColumn maxColumn (!leftToRight)
        codewordStartColumn imageRow c1 with _ | c2
    · simp only [h1, h2]
      omega
    · have hc2 := adjustPass_close image minColumn maxColumn (!leftToRight)
        codewordStartColumn imageRow c1 c2 hc1 h2
      simp only [h1, h2]
      omega

/-- Incrementing an in-range entry adds one to the sum of the counts. -/
theorem sum_incAt_of_lt (l : List Nat) (i : Nat) (h : i < l.length) :
    (incAt l i).sum = l.sum + 1 := by
  induction l generalizing i with
  | nil => simp at h
  | cons a t ih =>
    cases i with
    | zero =>
      simp only [incAt, List.getD_cons_zero, List.set_cons_zero, List.sum_cons]
      omega
    | succ j =>
      have hj : j < t.length := by simpa using h
      simp only [incAt, List.getD_cons_succ, List.set_cons_succ, List.sum_cons]
      have := ih j hj
      simp only [incAt] at this
      omega

/-- Incrementing an entry never decreases the sum of the counts. -/
theorem sum_le_sum_incAt (l : List Nat) (i : Nat) : l.sum ≤ (incAt l i).sum := by
  by_cases h : i < l.length
  · rw [sum_incAt_of_lt l i h]
    omega
  · unfold incAt
    rw [List.set_eq_of_length_le (by omega)]

/-- `incAt` preserves the length of the counts. -/
theorem incAt_length (l : List Nat) (i : Nat) : (incAt l i).length = l.length := by
  simp [incAt]

/-- The scan loop never decreases the sum of the module bit counts. -/
theorem moduleScanLoop_sum_le (image : Int → Int → Bool)
    (minColumn maxColumn : Int) (leftToRight : Bool) (imageRow : Int) :
    ∀ imageColumn moduleNumber previousPixelValue counts,
      counts.sum ≤ (moduleScanLoop image minColumn maxColumn leftToRight
        imageRow imageColumn moduleNumber previousPixelValue counts).2.2.sum := by
  intro imageColumn moduleNumber previousPixelValue counts
  induction imageColumn, moduleNumber, previousPixelValue, counts
    using moduleScanLoop.induct image minColumn maxColumn leftToRight imageRow with
  | case1 col mn counts hguard ih =>
    simp only [dite_eq_ite] at hguard
    rw [moduleScanLoop, dif_pos hguard, if_pos rfl]
    exact le_trans (sum_le_sum_incAt counts mn) ih
  | case2 col mn prev counts hguard hpix ih =>
    simp only [dite_eq_ite] at hguard
    rw [moduleScanLoop, dif_pos hguard, if_neg hpix]
    exact ih
  | case3 col mn prev counts hguard =>
    simp only [dite_eq_ite] at hguard
    rw [moduleScanLoop, dif_neg hguard]

/-- If the scan loop gains at least two modules — or at least one while the
current pixel still matches the expected value — then it strictly increases
the sum of the counts: a transition is always followed by a count increment
before the next transition. -/
theorem moduleScanLoop_sum_gain (image : Int → Int → Bool)
    (minColumn maxColumn : Int) (leftToRight : Bool) (imageRow : Int) :
    ∀ imageColumn moduleNumber previousPixelValue counts,
      counts.length = 8 →
      ((moduleScanLoop image minColumn maxColumn leftToRight imageRow
          imageColumn moduleNumber previousPixelValue counts).2.1 ≥
            moduleNumber + 2 ∨
        ((moduleScanLoop image minColumn maxColumn leftToRight imageRow
            imageColumn moduleNumber previousPixelValue counts).2.1 ≥
              moduleNumber + 1 ∧
          image imageColumn imageRow = previousPixelValue)) →
      counts.sum < (moduleScanLoop image minColumn maxColumn leftToRight
        imageRow imageColumn moduleNumber previousPixelValue counts).2.2.sum := by
  intro imageColumn moduleNumber previousPixelValue counts
  induction imageColumn, moduleNumber, previousPixelValue, counts
    using moduleScanLoop.induct image minColumn maxColumn leftToRight imageRow with
  | case1 col mn counts hguard ih =>
    intro hlen _hgain
    simp only [dite_eq_ite] at hguard
    rw [moduleScanLoop, dif_pos hguard, if_pos rfl]
    have h1 : counts.sum < (incAt counts mn).sum := by
      rw [sum_incAt_of_lt counts mn (by omega)]
      omega
    exact lt_of_lt_of_le h1 (moduleScanLoop_sum_le image minColumn maxColumn
      leftToRight imageRow _ _ _ _)
  | case2 col mn prev counts hguard hpix ih =>
    intro hlen hgain
    simp only [dite_eq_ite] at hguard
    rw [moduleScanLoop, dif_pos hguard, if_neg hpix] at hgain ⊢
    have hflip : image col imageRow = !prev := by
      cases hi : image col imageRow <;> cases prev <;> simp_all
    refine ih hlen (Or.inr ⟨?_, hflip⟩)
    rcases hgain with hg | ⟨_, hg⟩
    · omega
    · exact absurd hg hpix
  | case3 col mn prev counts hguard =>
    intro hlen hgain
    rw [moduleScanLoop] at hgain
    rw [dif_neg (by simpa only [dite_eq_ite] using hguard)] at hgain
    rcases hgain with hg | ⟨hg, _⟩ <;> simp at hg

/-- A successful `GetModuleBitCount` fills at least 7 modules, hence
registers at least one pixel: the total bit count is positive. -/
theorem getModuleBitCount_ok_sum_pos (image : Int → Int → Bool)
    (minColumn maxColumn : Int) (leftToRight : Bool)
    (startColumn imageRow : Int) :
    (GetModuleBitCount image minColumn maxColumn leftToRight startColumn
      imageRow).1 = true →
    1 ≤ (GetModuleBitCount image minColumn maxColumn leftToRight startColumn
      imageRow).2.sum := by
  unfold GetModuleBitCount
  rcases hL : moduleScanLoop image minColumn maxColumn leftToRight imageRow
    startColumn 0 leftToRight (List.replicate 8 0) with ⟨endCol, mn, counts⟩
  simp only [hL]
  intro hok
  have hmn : mn ≥ 0 + 2 := by
    simp only [Bool.or_eq_true, beq_iff_eq, Bool.and_eq_true] at hok
    omega
  have hgain := moduleScanLoop_sum_gain image minColumn maxColumn leftToRight
    imageRow startColumn 0 leftToRight (List.replicate 8 0) (by simp)
    (Or.inl (by rw [hL]; exact hmn))
  rw [hL] at hgain
  simpa using hgain

/-- `Int.tmod` (the C `%`) coincides with the Euclidean `%` on a
non-negative dividend. -/
theorem tmod_nonneg_eq_emod (a : Int) (h : 0 ≤ a) : Int.tmod a 9 = a % 9 := by
  lift a to Nat using h
  rfl

/-- On a valid normalized pattern (8 runs, each of length at least 1,
summing to 17 modules) the bucket number is the mathematical
`(b₀ − b₂ + b₄ − b₆ + 9) mod 9`, which lies in `[0, 9)`: the C `%` never
sees a negative dividend here. -/
theorem bucket_of_valid_counts (b : List Nat) (hlen : b.length = 8)
    (hpos : ∀ x ∈ b, 1 ≤ x) (hsum : b.sum = 17) :
    GetCodewordBucketNumberOfCounts b =
      ((b.getD 0 0 : Int) - (b.getD 2 0 : Int) + (b.getD 4 0 : Int) -
        (b.getD 6 0 : Int) + 9) % 9 ∧
      0 ≤ GetCodewordBucketNumberOfCounts b ∧
      GetCodewordBucketNumberOfCounts b < 9 := by
  have h9 : (0 : Int) ≤ (b.getD 0 0 : Int) - (b.getD 2 0 : Int) +
      (b.getD 4 0 : Int) - (b.getD 6 0 : Int) + 9 := by
    rcases b with _ | ⟨b0, b⟩; · simp at hlen
    rcases b with _ | ⟨b1, b⟩; · simp at hlen
    rcases b with _ | ⟨b2, b⟩; · simp at hlen
    rcases b with _ | ⟨b3, b⟩; · simp at hlen
    rcases b with _ | ⟨b4, b⟩; · simp at hlen
    rcases b with _ | ⟨b5, b⟩; · simp at hlen
    rcases b with _ | ⟨b6, b⟩; · simp at hlen
    rcases b with _ | ⟨b7, b⟩; · simp at hlen
    obtain rfl : b = [] := by simpa using hlen
    have h0 := hpos b0 (by simp)
    have h1 := hpos b1 (by simp)
    have h3 := hpos b3 (by simp)
    have h4 := hpos b4 (by simp)
    have h5 := hpos b5 (by simp)
    have h7 := hpos b7 (by simp)
    simp only [List.sum_cons, List.sum_nil] at hsum
    simp only [List.getD_cons_zero, List.getD_cons_succ]
    omega
  unfold GetCodewordBucketNumberOfCounts
  refine ⟨tmod_nonneg_eq_emod _ h9, ?_, ?_⟩
  · rw [tmod_nonneg_eq_emod _ h9]
    exact Int.emod_nonneg _ (by norm_num)
  · rw [tmod_nonneg_eq_emod _ h9]
    exact Int.emod_lt_of_pos _ (by norm_num)

/-- C7: every codeword produced by `DetectCodeword` has a bucket in
`[0, 9)`, a value in `[0, 929)` and `endX > startX`, and its bucket is
`(b₀ − b₂ + b₄ − b₆ + 9) mod 9` for the bit counts `b` of its normalized
module pattern (the decoded value whose lookup produced the codeword's
value).  The hypothesis `hcw` is modelled from the spec: the external
`Common::GetCodeword` succeeds only on valid symbol patterns — 8 runs, each
of length at least 1, summing to 17 modules — and returns a codeword index
in `0..928`. -/
theorem detectCodeword_invariants (getDecodedValue : DecodedValueFn)
    (getCodeword : SymbolLookupFn)
    (hcw : ∀ dv v, getCodeword dv = some v →
      (0 ≤ v ∧ v < 929) ∧
        ∃ b, GetBitCountForCodeword dv = some b ∧ b.length = 8 ∧
          (∀ x ∈ b, 1 ≤ x) ∧ b.sum = 17)
    (image : Int → Int → Bool) (minColumn maxColumn : Int)
    (leftToRight : Bool)
    (startColumn0 imageRow minCodewordWidth maxCodewordWidth : Int)
    (c : Codeword)
    (h : DetectCodeword getDecodedValue getCodeword image minColumn maxColumn
      leftToRight startColumn0 imageRow minCodewordWidth maxCodewordWidth =
        some c) :
    (0 ≤ c.bucket ∧ c.bucket < 9) ∧ (0 ≤ c.value ∧ c.value < 929) ∧
      c.endX > c.startX ∧
      ∃ dv b, getCodeword dv = some c.value ∧
        GetBitCountForCodeword dv = some b ∧
        c.bucket = ((b.getD 0 0 : Int) - (b.getD 2 0 : Int) +
          (b.getD 4 0 : Int) - (b.getD 6 0 : Int) + 9) % 9 := by
  unfold DetectCodeword at h
  simp only [] at h
  rcases hok : (GetModuleBitCount image minColumn maxColumn leftToRight
      (AdjustCodewordStartColumn image minColumn maxColumn leftToRight
        startColumn0 imageRow) imageRow).1 with _ | _
  · rw [hok] at h
    simp at h
  · rw [hok] at h
    simp only [Bool.not_true, Bool.false_eq_true, if_false] at h
    rcases hskew : CheckCodewordSkew
        ((GetModuleBitCount image minColumn maxColumn leftToRight
          (AdjustCodewordStartColumn image minColumn maxColumn leftToRight
            startColumn0 imageRow) imageRow).2.sum : Int)
        minCodewordWidth maxCodewordWidth with _ | _
    · rw [hskew] at h
      simp at h
    · rw [hskew] at h
      simp only [Bool.not_true, Bool.false_eq_true, if_false] at h
      rcases hdv : getDecodedValue
          (if leftToRight then
            (GetModuleBitCount image minColumn maxColumn leftToRight
              (AdjustCodewordStartColumn image minColumn maxColumn leftToRight
                startColumn0 imageRow) imageRow).2
          else
            (GetModuleBitCount image minColumn maxColumn leftToRight
              (AdjustCodewordStartColumn image minColumn maxColumn leftToRight
                startColumn0 imageRow) imageRow).2.reverse) with _ | dv
      · rw [hdv] at h
        simp at h
      · rw [hdv] at h
        simp only [] at h
        rcases hgc : getCodeword dv with _ | cw
        · rw [hgc] at h
          simp at h
        · rw [hgc] at h
          simp only [] at h
          rcases hbc : GetBitCountForCodeword dv with _ | b
          · rw [hbc] at h
            simp at h
          · rw [hbc] at h
            simp only [Option.some.injEq] at h
            obtain ⟨⟨hval0, hval1⟩, b', hbc', hblen, hbpos, hbsum⟩ :=
              hcw dv cw hgc
            have hbb : b' = b := by
              rw [hbc] at hbc'
              exact ((Option.some.injEq _ _).mp hbc').symm
            rw [hbb] at hblen hbpos hbsum
            obtain ⟨hbeq, hb0, hb9⟩ :=
              bucket_of_valid_counts b hblen hbpos hbsum
            have hsum1 : 1 ≤ (GetModuleBitCount image minColumn maxColumn
                leftToRight (AdjustCodewordStartColumn image minColumn
                  maxColumn leftToRight startColumn0 imageRow) imageRow).2.sum :=
              getModuleBitCount_ok_sum_pos image minColumn maxColumn
                leftToRight _ imageRow hok
            subst h
            refine ⟨⟨hb0, hb9⟩, ⟨hval0, hval1⟩, ?_, dv, b, hgc, hbc, hbeq⟩
            have hsum1i : (1 : Int) ≤ ((GetModuleBitCount image minColumn
                maxColumn leftToRight (AdjustCodewordStartColumn image
                  minColumn maxColumn leftToRight startColumn0 imageRow)
                imageRow).2.sum : Int) := by exact_mod_cast hsum1
            push_cast at hsum1i
            rcases leftToRight with _ | _ <;> simp <;> omega

/-- The row of pixels used by `detectCodeword_invariants_witness`: black on
columns 0-7, 9, 11, 13 and 17 (runs 8,1,1,1,1,1,1,3 followed by a bar). -/
def img7 : Int → Int → Bool := fun c _ =>
  decide ((0 ≤ c ∧ c ≤ 7) ∨ c = 9 ∨ c = 11 ∨ c = 13 ∨ c = 17)

/-- A decoded-value oracle recognizing the single pattern of the witness row
(run lengths `[8,1,1,1,1,1,1,3]`, i.e. the 17-bit pattern `0x1FEA8`). -/
def gdv7 : DecodedValueFn := fun counts =>
  if counts = [8, 1, 1, 1, 1, 1, 1, 3] then some 130728 else none

/-- A symbol table mapping that single pattern to codeword value 5. -/
def gcw7 : SymbolLookupFn := fun dv => if dv = 130728 then some 5 else none

/-- `gcw7` satisfies the spec-modelled contract of `Common::GetCodeword`. -/
theorem gcw7_contract : ∀ dv v, gcw7 dv = some v →
    (0 ≤ v ∧ v < 929) ∧
      ∃ b, GetBitCountForCodeword dv = some b ∧ b.length = 8 ∧
        (∀ x ∈ b, 1 ≤ x) ∧ b.sum = 17 := by
  intro dv v hv
  unfold gcw7 at hv
  split at hv
  · rename_i hdv
    subst hdv
    obtain rfl : (5 : Int) = v := (Option.some.injEq _ _).mp hv
    exact ⟨⟨by norm_num, by norm_num⟩, [8, 1, 1, 1, 1, 1, 1, 3],
      by decide, by decide, by decide, by decide⟩
  · exact absurd hv (by simp)

/-- Concrete evaluation of `DetectCodeword` on the witness row: it finds the
codeword spanning columns 0-17 with bucket `(8−1+1−1+9) % 9 = 7`. -/
theorem detectCodeword_eval :
    DetectCodeword gdv7 gcw7 img7 0 18 true 0 0 17 17 =
      some ⟨0, 17, 7, 5⟩ := by
  simp [DetectCodeword, AdjustCodewordStartColumn, adjustPass,
    GetModuleBitCount, moduleScanLoop, incAt, CheckCodewordSkew,
    GetBitCountForCodeword, bitCountLoop, GetCodewordBucketNumberOfCounts,
    gdv7, gcw7, img7]
  decide

/-- Concrete instance of `detectCodeword_invariants` at the witness row. -/
theorem detectCodeword_invariants_witness :
    (0 ≤ (Codeword.mk 0 17 7 5).bucket ∧ (Codeword.mk 0 17 7 5).bucket < 9) ∧
      (0 ≤ (Codeword.mk 0 17 7 5).value ∧ (Codeword.mk 0 17 7 5).value < 929) ∧
      (Codeword.mk 0 17 7 5).endX > (Codeword.mk 0 17 7 5).startX ∧
      ∃ dv b, gcw7 dv = some (Codeword.mk 0 17 7 5).value ∧
        GetBitCountForCodeword dv = some b ∧
        (Codeword.mk 0 17 7 5).bucket = ((b.getD 0 0 : Int) -
          (b.getD 2 0 : Int) + (b.getD 4 0 : Int) - (b.getD 6 0 : Int) +
            9) % 9 :=
  detectCodeword_invariants gdv7 gcw7 gcw7_contract img7 0 18 true 0 0 17 17
    (Codeword.mk 0 17 7 5) detectCodeword_eval

/-- The mixed-radix digits of 0 are all zero — the initial counter state. -/
theorem mixedRadixDigits_zero (sizes : List Nat) :
    mixedRadixDigits sizes 0 = List.replicate sizes.length 0 := by
  induction sizes with
  | nil => rfl
  | cons s ss ih => simp [mixedRadixDigits, ih, List.replicate]

/-- The digit string of `n` has one digit per place size. -/
theorem mixedRadixDigits_length (sizes : List Nat) (n : Nat) :
    (mixedRadixDigits sizes n).length = sizes.length := by
  induction sizes generalizing n with
  | nil => rfl
  | cons s ss ih => simp [mixedRadixDigits, ih]

/-- All sizes positive makes the mixed-radix capacity positive. -/
theorem prod_pos_of_all_pos (sizes : List Nat) (h : ∀ s ∈ sizes, 1 ≤ s) :
    1 ≤ sizes.prod := by
  induction sizes with
  | nil => simp
  | cons s ss ih =>
    have hs := h s (by simp)
    have hss := ih fun x hx => h x (by simp [hx])
    simp only [List.prod_cons]
    exact Nat.one_le_iff_ne_zero.mpr (Nat.mul_ne_zero (by omega) (by omega))

/-- The source's counter-increment loop realizes the mixed-radix successor:
on the digit string of `n` it yields the digit string of `n + 1`, or
overflows exactly when `n + 1` reaches the capacity. -/
theorem incCounts_mixedRadixDigits (sizes : List Nat)
    (hpos : ∀ s ∈ sizes, 1 ≤ s) :
    ∀ n, n + 1 ≤ sizes.prod →
      incCounts (mixedRadixDigits sizes n) sizes =
        if n + 1 < sizes.prod then some (mixedRadixDigits sizes (n + 1))
        else none := by
  induction sizes with
  | nil =>
    intro n hn
    simp only [List.prod_nil] at hn ⊢
    rw [if_neg (by omega)]
    rfl
  | cons s ss ih =>
    intro n hn
    have hs : 1 ≤ s := hpos s (by simp)
    have hss : ∀ x ∈ ss, 1 ≤ x := fun x hx => hpos x (by simp [hx])
    have hdm : s * (n / s) + n % s = n := Nat.div_add_mod n s
    have hms : n % s < s := Nat.mod_lt n (by omega)
    simp only [List.prod_cons] at hn ⊢
    simp only [mixedRadixDigits, incCounts]
    by_cases hc : n % s + 1 < s
    · rw [if_pos hc]
      have e1 : (n + 1) % s = n % s + 1 := by
        conv_lhs => rw [← hdm, Nat.add_assoc, Nat.mul_add_mod]
        exact Nat.mod_eq_of_lt hc
      have e2 : (n + 1) / s = n / s := by
        conv_lhs => rw [← hdm, Nat.add_assoc, Nat.mul_add_div (by omega)]
        rw [Nat.div_eq_of_lt hc]
        omega
      have hlt : n + 1 < s * ss.prod := by
        rcases Nat.lt_or_ge (n + 1) (s * ss.prod) with h | h
        · exact h
        · exfalso
          have he : n + 1 = s * ss.prod := by omega
          rw [he, Nat.mul_mod_right] at e1
          omega
      rw [if_pos hlt]
      simp [mixedRadixDigits, e1, e2]
    · rw [if_neg hc]
      have hmod : n % s = s - 1 := by omega
      have he : n + 1 = s * (n / s + 1) := by
        rw [Nat.mul_add, Nat.mul_one]
        omega
      have e1 : (n + 1) % s = 0 := by rw [he, Nat.mul_mod_right]
      have e2 : (n + 1) / s = n / s + 1 := by
        rw [he, Nat.mul_div_cancel_left _ (show 0 < s by omega)]
      have hle : n / s + 1 ≤ ss.prod := by
        rw [he] at hn
        exact Nat.le_of_mul_le_mul_left hn (by omega)
      rw [ih hss (n / s) hle]
      have hmul : n + 1 < s * ss.prod ↔ n / s + 1 < ss.prod := by
        rw [he]
        exact mul_lt_mul_left (show (0 : Nat) < s by omega)
      by_cases hlt : n / s + 1 < ss.prod
      · rw [if_pos hlt, if_pos (hmul.mpr hlt)]
        simp [mixedRadixDigits, e1, e2]
      · rw [if_neg hlt, if_neg (fun hcon => hlt (hmul.mp hcon))]
        rfl

/-- The mixed-radix value of the digit string of `n` is `n` itself: the
enumeration never revisits a counter state. -/
theorem mixedRadixValue_digits (sizes : List Nat)
    (hpos : ∀ s ∈ sizes, 1 ≤ s) :
    ∀ n, n < sizes.prod →
      mixedRadixValue sizes (mixedRadixDigits sizes n) = n := by
  induction sizes with
  | nil =>
    intro n hn
    simp only [List.prod_nil] at hn
    obtain rfl : n = 0 := by omega
    rfl
  | cons s ss ih =>
    intro n hn
    have hs : 1 ≤ s := hpos s (by simp)
    have hss : ∀ x ∈ ss, 1 ≤ x := fun x hx => hpos x (by simp [hx])
    simp only [List.prod_cons] at hn
    have hdiv : n / s < ss.prod := by
      rw [Nat.div_lt_iff_lt_mul (show 0 < s by omega)]
      calc n < s * ss.prod := hn
        _ = ss.prod * s := Nat.mul_comm _ _
    simp only [mixedRadixDigits, mixedRadixValue]
    rw [ih hss (n / s) hdiv]
    exact Nat.mod_add_div n s

/-- Core invariant of the ambiguity-resolution loop: started at the counter
state of rank `n` with enough fuel to reach the capacity, the loop calls
`decode` on the counter states of ranks `n, n+1, …` in mixed-radix order,
one attempt each; it stops at the first non-Checksum status, which it
returns, and returns Checksum exactly when every state up to the last rank
was tried and every attempt returned Checksum. -/
theorem resolveLoop_spec (decode : List Int → ErrorStatus × List Int)
    (idxs : List Nat) (vals : List (List Int))
    (hpos : ∀ v ∈ vals, 1 ≤ v.length) :
    ∀ fuel n cw st tr,
      n < (vals.map List.length).prod →
      (vals.map List.length).prod ≤ n + fuel →
      resolveLoop decode idxs vals fuel cw
        (mixedRadixDigits (vals.map List.length) n) = (st, tr) →
      ∃ m, 1 ≤ m ∧ n + m ≤ (vals.map List.length).prod ∧
        tr.map Prod.fst =
          (List.range' n m).map (mixedRadixDigits (vals.map List.length)) ∧
        (st ≠ ErrorStatus.ChecksumError →
          tr.getLast? =
            some (mixedRadixDigits (vals.map List.length) (n + m - 1), st) ∧
          ∀ p ∈ tr.dropLast, p.2 = ErrorStatus.ChecksumError) ∧
        (st = ErrorStatus.ChecksumError →
          n + m = (vals.map List.length).prod ∧
          ∀ p ∈ tr, p.2 = ErrorStatus.ChecksumError) := by
  have hpos' : ∀ s ∈ vals.map List.length, 1 ≤ s := by
    intro s hs
    obtain ⟨v, hv, rfl⟩ := List.mem_map.mp hs
    exact hpos v hv
  intro fuel
  induction fuel with
  | zero =>
    intro n cw st tr hn hfuel _
    omega
  | succ fuel ih =>
    intro n cw st tr hn hfuel hrun
    rw [resolveLoop] at hrun
    simp only [] at hrun
    rcases hdec : decode (patchCodewords cw idxs vals
        (mixedRadixDigits (vals.map List.length) n)) with ⟨st0, cw1⟩
    rw [hdec] at hrun
    simp only [] at hrun
    by_cases hst : st0 = ErrorStatus.ChecksumError
    · rw [if_neg (by simp [hst])] at hrun
      by_cases hemp : vals.map List.length = []
      · have hP : (vals.map List.length).prod = 1 := by rw [hemp]; rfl
        obtain rfl : n = 0 := by omega
        rw [if_pos (by rw [hemp]; rfl)] at hrun
        cases hrun
        refine ⟨1, le_refl 1, by omega, by simp, ?_, ?_⟩
        · intro hne
          exact absurd rfl hne
        · intro _
          refine ⟨by omega, ?_⟩
          intro p hp
          simp only [List.mem_singleton] at hp
          rw [hp, hst]
      · have hne : (mixedRadixDigits (vals.map List.length) n).isEmpty = false := by
          rw [List.isEmpty_eq_false_iff_exists_mem]
          rcases hd : mixedRadixDigits (vals.map List.length) n with _ | ⟨x, xs⟩
          · exfalso
            have := mixedRadixDigits_length (vals.map List.length) n
            rw [hd] at this
            exact hemp (List.length_eq_zero.mp this.symm)
          · exact ⟨x, by simp⟩
        rw [if_neg (by simp [hne])] at hrun
        rw [incCounts_mixedRadixDigits (vals.map List.length) hpos' n
          (by omega)] at hrun
        by_cases hnext : n + 1 < (vals.map List.length).prod
        · rw [if_pos hnext] at hrun
          simp only [] at hrun
          have h1 : (resolveLoop decode idxs vals fuel cw1
              (mixedRadixDigits (vals.map List.length) (n + 1))).1 = st :=
            congrArg Prod.fst hrun
          have h2 : (mixedRadixDigits (vals.map List.length) n, st0) ::
              (resolveLoop decode idxs vals fuel cw1
                (mixedRadixDigits (vals.map List.length) (n + 1))).2 = tr :=
            congrArg Prod.snd hrun
          subst h1
          subst h2
          obtain ⟨m', hm1', hmP', htr', hne', hchk'⟩ :=
            ih (n + 1) cw1 _ _ hnext (by omega) Prod.mk.eta.symm
          set fin := (resolveLoop decode idxs vals fuel cw1
            (mixedRadixDigits (vals.map List.length) (n + 1))).1 with hfin_def
          set tr' := (resolveLoop decode idxs vals fuel cw1
            (mixedRadixDigits (vals.map List.length) (n + 1))).2 with htr_def
          have htrne : tr' ≠ [] := by
            intro hcon
            rw [hcon] at htr'
            have hL : ((List.range' (n + 1) m').map
                (mixedRadixDigits (vals.map List.length))).length = 0 := by
              rw [← htr']
              rfl
            simp at hL
            omega
          refine ⟨m' + 1, by omega, by omega, ?_, ?_, ?_⟩
          · simp only [List.map_cons, htr', List.range'_succ, List.map]
          · intro hfin1
            obtain ⟨hlast, hdrop⟩ := hne' hfin1
            constructor
            · rcases htr2 : tr' with _ | ⟨q, qs⟩
              · exact absurd htr2 htrne
              · rw [htr2] at hlast
                rw [List.getLast?_cons_cons, hlast]
                have heq : n + 1 + m' - 1 = n + (m' + 1) - 1 := by omega
                rw [heq]
            · intro p hp
              rcases htr2 : tr' with _ | ⟨q, qs⟩
              · exact absurd htr2 htrne
              · rw [htr2] at hp hdrop
                rw [List.dropLast_cons₂] at hp
                rcases List.mem_cons.mp hp with hp1 | hp2
                · rw [hp1, hst]
                · exact hdrop p hp2
          · intro hfin1
            obtain ⟨hsumP, hall⟩ := hchk' hfin1
            refine ⟨by omega, ?_⟩
            intro p hp
            rcases List.mem_cons.mp hp with hp1 | hp2
            · rw [hp1, hst]
            · exact hall p hp2
        · rw [if_neg hnext] at hrun
          have h1 : ErrorStatus.ChecksumError = st := congrArg Prod.fst hrun
          have h2 : [(mixedRadixDigits (vals.map List.length) n, st0)] = tr :=
            congrArg Prod.snd hrun
          subst h1
          subst h2
          refine ⟨1, le_refl 1, by omega, by simp, ?_, ?_⟩
          · intro hcon
            exact absurd rfl hcon
          · intro _
            refine ⟨by omega, ?_⟩
            intro p hp
            simp only [List.mem_singleton] at hp
            rw [hp, hst]
    · rw [if_pos hst] at hrun
      have h1 : st0 = st := congrArg Prod.fst hrun
      have h2 : [(mixedRadixDigits (vals.map List.length) n, st0)] = tr :=
        congrArg Prod.snd hrun
      subst h1
      subst h2
      refine ⟨1, le_refl 1, by omega, by simp, ?_, ?_⟩
      · intro _
        refine ⟨?_, by simp⟩
        rw [List.getLast?_singleton]
        have heq : n + 1 - 1 = n := by omega
        rw [heq]
      · intro hcon
        exact absurd hcon hst

/-- C4: when the candidate-value lists of the ambiguous cells are nonempty
(the caller only collects cells with at least two candidates) and their
sizes have product at most 100 (the loop's `tries` budget),
`CreateDecoderResultFromAmbiguousValues` invokes `DecodeCodewords` on the
combinations of candidate values in mixed-radix order — least significant
position advancing first — trying each combination at most once (the trace
of counter states is an initial segment of the rank enumeration, without
duplicates); it returns the first status that is not `ChecksumError`
immediately (every earlier attempt returned `ChecksumError`), and returns
`ChecksumError` only after every one of the `∏ nᵢ` combinations returned
`ChecksumError` — immediately after the first attempt when there are no
ambiguous cells (`m = ∏ (sizes of []) = 1`). -/
theorem createDecoderResultFromAmbiguousValues_spec
    (ecDecode : ECDecoder) (parser : BitStreamParser) (ecLevel : Nat)
    (codewords erasureArray : List Int) (ambiguousIndexes : List Nat)
    (ambiguousIndexValues : List (List Int))
    (hlen : ambiguousIndexes.length = ambiguousIndexValues.length)
    (hpos : ∀ v ∈ ambiguousIndexValues, 1 ≤ v.length)
    (hbound : (ambiguousIndexValues.map List.length).prod ≤ 100) :
    ∀ st tr,
      CreateDecoderResultFromAmbiguousValues ecDecode parser ecLevel
        codewords erasureArray ambiguousIndexes ambiguousIndexValues =
          (st, tr) →
      ∃ m, 1 ≤ m ∧ m ≤ (ambiguousIndexValues.map List.length).prod ∧
        tr.map Prod.fst = (List.range m).map
          (mixedRadixDigits (ambiguousIndexValues.map List.length)) ∧
        (tr.map Prod.fst).Nodup ∧
        (st ≠ ErrorStatus.ChecksumError →
          tr.getLast? = some (mixedRadixDigits
            (ambiguousIndexValues.map List.length) (m - 1), st) ∧
          ∀ p ∈ tr.dropLast, p.2 = ErrorStatus.ChecksumError) ∧
        (st = ErrorStatus.ChecksumError →
          m = (ambiguousIndexValues.map List.length).prod ∧
          ∀ p ∈ tr, p.2 = ErrorStatus.ChecksumError) := by
  intro st tr hrun
  have hpos' : ∀ s ∈ ambiguousIndexValues.map List.length, 1 ≤ s := by
    intro s hs
    obtain ⟨v, hv, rfl⟩ := List.mem_map.mp hs
    exact hpos v hv
  have hP1 : 1 ≤ (ambiguousIndexValues.map List.length).prod :=
    prod_pos_of_all_pos _ hpos'
  have hinit : List.replicate ambiguousIndexes.length 0 =
      mixedRadixDigits (ambiguousIndexValues.map List.length) 0 := by
    rw [mixedRadixDigits_zero, List.length_map, hlen]
  unfold CreateDecoderResultFromAmbiguousValues at hrun
  rw [hinit] at hrun
  obtain ⟨m, hm1, hmP, htr, hne, hchk⟩ := resolveLoop_spec
    (fun cw => DecodeCodewords ecDecode parser cw ecLevel erasureArray)
    ambiguousIndexes ambiguousIndexValues hpos 100 0 codewords st tr
    (by omega) (by omega) hrun
  refine ⟨m, hm1, by omega, ?_, ?_, ?_, ?_⟩
  · rw [htr, List.range_eq_range']
  · rw [htr]
    refine List.Nodup.map_on ?_ (List.nodup_range' 0 m)
    intro x hx y hy hxy
    have hx' : x < (ambiguousIndexValues.map List.length).prod := by
      have := List.mem_range'_1.mp hx
      omega
    have hy' : y < (ambiguousIndexValues.map List.length).prod := by
      have := List.mem_range'_1.mp hy
      omega
    have hvx := mixedRadixValue_digits
      (ambiguousIndexValues.map List.length) hpos' x hx'
    have hvy := mixedRadixValue_digits
      (ambiguousIndexValues.map List.length) hpos' y hy'
    rw [← hvx, ← hvy, hxy]
  · intro hst
    obtain ⟨hlast, hdrop⟩ := hne hst
    exact ⟨by simpa using hlast, hdrop⟩
  · intro hst
    obtain ⟨hsum, hall⟩ := hchk hst
    exact ⟨by omega, hall⟩

/-- A Reed-Solomon oracle for the C4 witness: fails exactly when the first
codeword is 7, succeeds (without changes) otherwise. -/
def ec4 : ECDecoder := fun cw _ _ =>
  if cw.headD 0 = 7 then none else some (cw, 0)

/-- A bit-stream parser for the C4 witness (never consulted on the
witness run, which ends in a `VerifyCodewordCount` format error). -/
def par4 : BitStreamParser := fun _ _ => ErrorStatus.NoError

/-- Concrete instance of `createDecoderResultFromAmbiguousValues_spec`: one
ambiguous cell (index 0) with candidates `[7, 8]`.  The first combination
fails the checksum, the second hits a format error, which is returned
immediately; the trace visits the counter states `[0]` then `[1]`. -/
theorem createDecoderResultFromAmbiguousValues_spec_witness :
    ∃ m, 1 ≤ m ∧ m ≤ ([[(7 : Int), 8]].map List.length).prod ∧
      ([([0], ErrorStatus.ChecksumError),
          ([1], ErrorStatus.FormatError)].map Prod.fst =
        (List.range m).map
          (mixedRadixDigits ([[(7 : Int), 8]].map List.length))) ∧
      ([([0], ErrorStatus.ChecksumError),
          ([1], ErrorStatus.FormatError)].map Prod.fst).Nodup ∧
      (ErrorStatus.FormatError ≠ ErrorStatus.ChecksumError →
        [([0], ErrorStatus.ChecksumError),
            ([1], ErrorStatus.FormatError)].getLast? =
          some (mixedRadixDigits ([[(7 : Int), 8]].map List.length) (m - 1),
            ErrorStatus.FormatError) ∧
        ∀ p ∈ [([0], ErrorStatus.ChecksumError),
            ([1], ErrorStatus.FormatError)].dropLast,
          p.2 = ErrorStatus.ChecksumError) ∧
      (ErrorStatus.FormatError = ErrorStatus.ChecksumError →
        m = ([[(7 : Int), 8]].map List.length).prod ∧
        ∀ p ∈ [([0], ErrorStatus.ChecksumError),
            ([1], ErrorStatus.FormatError)],
          p.2 = ErrorStatus.ChecksumError) :=
  createDecoderResultFromAmbiguousValues_spec ec4 par4 0 [0, 0, 0, 0] [] [0]
    [[7, 8]] (by decide) (by decide) (by decide) ErrorStatus.FormatError
    [([0], ErrorStatus.ChecksumError), ([1], ErrorStatus.FormatError)]
    (by decide)

end Pdf417

end ZXing
